import Mathlib

/-!
Verification of the TracePad provenance interval engine.

This file gives a shallow embedding of the engine's core data model and
operations (`text_tracker.py`, `metadata_manager.py`, `file_manager.py`)
and proves or refutes the frozen specification claims about them.

Conventions of the embedding:
* Python integers become `Int` (character offsets can be negative when a
  caller passes a negative position, so `Nat` would be unfaithful).
* Timestamps (`time.time()`) are modelled as an abstract `Int` clock value
  passed in by the caller; the engine never inspects timestamps, it only
  copies them.
* `tkinter` text-widget state is replaced by explicit parameter passing:
  the current buffer length is an `Int` argument (the spec's own design
  note asks for exactly this dependency injection).
* Python dicts of the fixed `{start, end, source, timestamp}` shape become
  the structure `Range`; `end` is a Lean keyword so that field is `stop`.
* Fallible code paths (caught exceptions) return `Option`.
-/

namespace TracePad

set_option maxRecDepth 10000

/-- Provenance interval, the dict `{start, end, source, timestamp}` kept in
`TextTracker.input_ranges`.  The Python key `end` is spelled `stop` because
`end` is a Lean keyword. -/
structure Range where
  start : Int
  stop : Int
  source : String
  timestamp : Int
deriving DecidableEq, Repr

/-- Embedding of `list.sort(key=lambda x: x['start'])`: the stable sort of
the range list ascending by `start`.  Python's `list.sort` is a stable
sort; as a function, a stable sort by a total preorder key is unique, and
`List.insertionSort` with this comparator is that stable sort (chosen over
`List.mergeSort` because it reduces in the kernel). -/
def sort_by_start (ranges : List Range) : List Range :=
  ranges.insertionSort (fun a b => a.start ≤ b.start)

/-- Embedding of `TextTracker._handle_deletions` (text_tracker.py lines
100-110): drop ranges starting at or past the current buffer length,
truncate `end` to the buffer length, and keep a range only if it is still
nonempty. -/
def truncate_range (current_length : Int) (r : Range) : Option Range :=
  if r.start ≥ current_length then none
  else
    let r' := { r with stop := min r.stop current_length }
    if r'.stop > r'.start then some r' else none

/-- The whole loop of `_handle_deletions`: rebuild the list keeping only the
ranges that survive `truncate_range`. -/
def handle_deletions (current_length : Int) (ranges : List Range) : List Range :=
  ranges.filterMap (truncate_range current_length)

/-- Embedding of the partition step of `TextTracker._update_ranges`
(text_tracker.py lines 117-144): how one existing range is rewritten
relative to an insertion of `end_idx - start_idx` characters at
`start_idx`. -/
def splitPieces (start_idx end_idx : Int) (r : Range) : List Range :=
  let insertion_length := end_idx - start_idx
  if r.stop ≤ start_idx then [r]
  else if r.start ≥ start_idx then
    [{ r with start := r.start + insertion_length, stop := r.stop + insertion_length }]
  else
    (if r.start < start_idx then [{ r with stop := start_idx }] else []) ++
    (if r.stop > start_idx then
      [{ r with start := end_idx, stop := r.stop + insertion_length }] else [])

/-- One iteration of the coalescing loop of `TextTracker._update_ranges`
(text_tracker.py lines 154-159): `merged` is the output list built so far;
the current range `r` is absorbed into `merged[-1]` when it has the same
source and touches it exactly (`merged[-1]['end'] == r['start']`),
otherwise it is appended. -/
def coalesce_touch_step (merged : List Range) (r : Range) : List Range :=
  match merged.getLast? with
  | some prev =>
    if prev.source = r.source ∧ prev.stop = r.start then
      merged.dropLast ++ [{ prev with stop := r.stop }]
    else merged ++ [r]
  | none => merged ++ [r]

/-- The full coalescing loop of `TextTracker._update_ranges`. -/
def coalesce_touch (l : List Range) : List Range := l.foldl coalesce_touch_step []

/-- Embedding of `TextTracker._update_ranges` (text_tracker.py lines
112-160): reconcile deletions, partition the existing ranges around the
insertion, append the new range, sort by `start`, coalesce touching
same-source neighbours. -/
def update_ranges (now current_length start_idx end_idx : Int) (source : String)
    (ranges : List Range) : List Range :=
  let ranges1 := handle_deletions current_length ranges
  let new_ranges :=
    ranges1.flatMap (splitPieces start_idx end_idx) ++
      [{ start := start_idx, stop := end_idx, source := source, timestamp := now }]
  coalesce_touch (sort_by_start new_ranges)

/-- Embedding of `TextTracker.track_manual_input` (text_tracker.py lines
42-52): the inserted length is `len(character)`; there is no guard against
an empty `character`.  The `_pos_to_index` widget-coordinate conversion is
host plumbing; the already-converted integer `position` is taken here. -/
def track_manual_input (current_length now position : Int) (character : String)
    (ranges : List Range) : List Range :=
  update_ranges now current_length position (position + (character.length : Int))
    "manual" ranges

/-- Embedding of `TextTracker.track_paste_input` (text_tracker.py lines
55-65): empty `content` is rejected by the `not content` guard. -/
def track_paste_input (current_length now position : Int) (content : String)
    (ranges : List Range) : List Range :=
  if content = "" then ranges
  else
    update_ranges now current_length position (position + (content.length : Int))
      "pasted" ranges

/-- Structural-recursion presentation of the coalescing loop of
`_update_ranges`: two adjacent same-source ranges that touch exactly are
fused (keeping the left start and taking the right stop) before the scan
continues.  `coalesce_touch_eq_rec` proves it equal to the loop-shaped
`coalesce_touch`. -/
def coalesce_touch_rec : List Range → List Range
  | [] => []
  | [r] => [r]
  | a :: b :: rs =>
    if a.source = b.source ∧ a.stop = b.start then
      coalesce_touch_rec ({ a with stop := b.stop } :: rs)
    else a :: coalesce_touch_rec (b :: rs)
termination_by l => l.length

/-- The tracker's representation invariant: ranges are pairwise
ordered-and-separated (`a.stop ≤ b.start` for `a` before `b`) and every
range is nonempty. -/
def WF (l : List Range) : Prop :=
  List.Pairwise (fun a b => a.stop ≤ b.start) l ∧ ∀ r ∈ l, r.start < r.stop

/-- Symmetric disjointness of two half-open intervals. -/
def disjR (a b : Range) : Prop := a.stop ≤ b.start ∨ b.stop ≤ a.start

/-- One recorded insertion, the argument tuple of one
`track_manual_input` / `track_paste_input` call, together with the buffer
length the widget reports to `_handle_deletions` during that call and the
`time.time()` value of the call. -/
inductive InsOp where
  | manualOp (buffer_length now position : Int) (character : String)
  | pasteOp (buffer_length now position : Int) (content : String)
deriving DecidableEq, Repr

/-- Apply one recorded insertion to the tracker's range list. -/
def applyOp (ranges : List Range) : InsOp → List Range
  | .manualOp L t p ch => track_manual_input L t p ch ranges
  | .pasteOp L t p c => track_paste_input L t p c ranges

/-- The claim's side condition on an operation: non-negative position and
positive inserted length. -/
def okOp : InsOp → Prop
  | .manualOp _ _ p ch => 0 ≤ p ∧ 0 < ch.length
  | .pasteOp _ _ p c => 0 ≤ p ∧ 0 < c.length

/-! Embedding of `MetadataManager` (metadata_manager.py). -/

/-- A metadata dictionary of the shape produced by
`TextTracker.get_metadata`: a version string and a range list. -/
structure Metadata where
  version : String
  ranges : List Range
deriving DecidableEq, Repr

/-- The manager's own `self.version` (metadata_manager.py line 14). -/
def mm_version : String := "1.0"

/-- One iteration of the coalescing loop of `MetadataManager.merge_metadata`
(metadata_manager.py lines 119-125): the current range is absorbed into
`merged_ranges[-1]` when it has the same source and `merged_ranges[-1]['end']
>= range_info['start']` (overlap or touch), taking the max of the two ends;
otherwise a copy of it is appended. -/
def coalesce_overlap_step (merged : List Range) (r : Range) : List Range :=
  match merged.getLast? with
  | some prev =>
    if prev.source = r.source ∧ prev.stop ≥ r.start then
      merged.dropLast ++ [{ prev with stop := max prev.stop r.stop }]
    else merged ++ [r]
  | none => merged ++ [r]

/-- The full coalescing loop of `merge_metadata`. -/
def coalesce_overlap (l : List Range) : List Range := l.foldl coalesce_overlap_step []

/-- Restatement of the spec's description of the merge coalescing pass
("a single left-to-right coalescing pass: an interval merges into the
previous output interval if same source and prev.end >= current.start,
taking the maximum of the two ends"), written as a structural recursion.
Claim C6 is settled by proving `merge_metadata` equal to
concatenate-sort-`coalesce_overlap_rec`. -/
def coalesce_overlap_rec : List Range → List Range
  | [] => []
  | [r] => [r]
  | a :: b :: rs =>
    if a.source = b.source ∧ a.stop ≥ b.start then
      coalesce_overlap_rec ({ a with stop := max a.stop b.stop } :: rs)
    else a :: coalesce_overlap_rec (b :: rs)
termination_by l => l.length

/-- Embedding of `MetadataManager.merge_metadata` (metadata_manager.py lines
99-132): concatenate both range lists (a falsy/absent input contributes
nothing), sort by `start`, run the coalescing pass, and stamp the output
with the manager's own version string. -/
def merge_metadata (metadata1 metadata2 : Option Metadata) : Metadata :=
  let all_ranges :=
    (match metadata1 with | some m => m.ranges | none => []) ++
    (match metadata2 with | some m => m.ranges | none => [])
  { version := mm_version, ranges := coalesce_overlap (sort_by_start all_ranges) }

/-- The result dictionary of `MetadataManager.get_stats`.  Python floats
are modelled as exact rationals. -/
structure Stats where
  total_chars : Int
  typed_chars : Int
  pasted_chars : Int
  unknown_chars : Int
  typed_percentage : ℚ
  pasted_percentage : ℚ
  unknown_percentage : ℚ
  total_ranges : Nat
  typed_ranges : Nat
  pasted_ranges : Nat
deriving DecidableEq, Repr

/-- One iteration of the accumulation loop of `get_stats`
(metadata_manager.py lines 160-173), carrying
`(tracked_chars, typed_chars, pasted_chars, typed_ranges, pasted_ranges)`.
A range whose source is neither `manual` nor `pasted` still adds its
length to `tracked_chars`. -/
def stats_step (acc : Int × Int × Int × Nat × Nat) (r : Range) : Int × Int × Int × Nat × Nat :=
  let length := r.stop - r.start
  let (tracked, typed, pasted, tn, pn) := acc
  if r.source = "manual" then (tracked + length, typed + length, pasted, tn + 1, pn)
  else if r.source = "pasted" then (tracked + length, typed, pasted + length, tn, pn + 1)
  else (tracked + length, typed, pasted, tn, pn)

/-- Embedding of `MetadataManager.get_stats` (metadata_manager.py lines
134-197).  An absent metadata argument (falsy or without `ranges`) reports
the whole buffer as unknown; percentages are only assigned when
`total_length > 0`, otherwise they stay at their `0.0` initialisation. -/
def get_stats (metadata : Option Metadata) (total_length : Int) : Stats :=
  match metadata with
  | none =>
    { total_chars := total_length, typed_chars := 0, pasted_chars := 0,
      unknown_chars := total_length,
      typed_percentage := 0, pasted_percentage := 0,
      unknown_percentage := if total_length > 0 then 100 else 0,
      total_ranges := 0, typed_ranges := 0, pasted_ranges := 0 }
  | some m =>
    let acc := m.ranges.foldl stats_step (0, 0, 0, 0, 0)
    let tracked := acc.1
    let typed := acc.2.1
    let pasted := acc.2.2.1
    let unknown := max 0 (total_length - tracked)
    { total_chars := total_length, typed_chars := typed, pasted_chars := pasted,
      unknown_chars := unknown,
      typed_percentage :=
        if total_length > 0 then (typed : ℚ) / (total_length : ℚ) * 100 else 0,
      pasted_percentage :=
        if total_length > 0 then (pasted : ℚ) / (total_length : ℚ) * 100 else 0,
      unknown_percentage :=
        if total_length > 0 then (unknown : ℚ) / (total_length : ℚ) * 100 else 0,
      total_ranges := m.ranges.length, typed_ranges := acc.2.2.2.1,
      pasted_ranges := acc.2.2.2.2 }

/-! Embedding of the JSON layer.  `serialize_metadata` / `deserialize_metadata`
go through Python's `json` standard library; its values are modelled by the
inductive `Json` and `json.loads` by the executable parser `json_loads`
below (restricted to integer numerals — the engine's own numbers are
offsets; float literals are outside the model). -/

/-- A parsed JSON value.  Python dicts preserve insertion order and the
code only ever builds them with distinct keys, so an association list is a
faithful object model. -/
inductive Json where
  | null
  | bool (b : Bool)
  | num (n : Int)
  | str (s : String)
  | arr (elems : List Json)
  | obj (members : List (String × Json))

/-- Dictionary key lookup, `d[k]` on an object. -/
def lookupKey (members : List (String × Json)) (k : String) : Option Json :=
  match members with
  | [] => none
  | (k', v) :: rest => if k' = k then some v else lookupKey rest k

/-- First index at which `needle` occurs in `hay`, Python's `str.find`
(which returns `-1`, modelled as `none`, when absent). -/
def indexOfSub (hay needle : List Char) : Option Nat :=
  match hay with
  | [] => if needle = [] then some 0 else none
  | _ :: t =>
    if needle.isPrefixOf hay then some 0
    else (indexOfSub t needle).map (· + 1)

/-- Python's `k in v` for a string needle `k`: key membership on a dict,
element equality on a list, substring test on a string, and a `TypeError`
(modelled `none`) on the other value shapes. -/
def pyIn (k : String) (v : Json) : Option Bool :=
  match v with
  | .obj members => some (lookupKey members k).isSome
  | .arr elems => some (elems.any fun e => match e with | .str s => s = k | _ => false)
  | .str s => some (indexOfSub s.toList k.toList).isSome
  | _ => none

/-- Python's `v[k]` for a string key: dict lookup (a missing key raises
`KeyError`, modelled `none`); every non-dict value raises `TypeError`,
also modelled `none`. -/
def pySubscript (v : Json) (k : String) : Option Json :=
  match v with
  | .obj members => lookupKey members k
  | _ => none

/-- The envelope-unwrapping logic of `MetadataManager.deserialize_metadata`
(metadata_manager.py lines 41-47) applied to an already-parsed value: if
`'ghostkey_metadata' in data` return `data['ghostkey_metadata']['data']`
(any exception on the way is caught and yields `None`); otherwise return
`data` itself when `'ranges' in data`, else `None`. -/
def deserialize_value (data : Json) : Option Json :=
  match pyIn "ghostkey_metadata" data with
  | none => none
  | some true => (pySubscript data "ghostkey_metadata").bind fun d => pySubscript d "data"
  | some false =>
    match pyIn "ranges" data with
    | none => none
    | some true => some data
    | some false => none

/-- The envelope built by `MetadataManager.serialize_metadata`
(metadata_manager.py lines 19-25) at the JSON-value level; `created` is
the `time.time()` float, modelled by the abstract clock value `now`.  The
`json.dumps` textual rendering is Python standard-library code outside
this repository and is treated as the identity bridge between values and
text. -/
def serialize_metadata_value (now : Int) (metadata : Json) : Json :=
  .obj [("ghostkey_metadata",
    .obj [("version", .str mm_version), ("created", .num now), ("data", metadata)])]

/-- Python whitespace for `str.strip` / `str.rstrip` (the ASCII cases). -/
def pySpace (c : Char) : Bool :=
  c = ' ' || c = '\t' || c = '\n' || c = '\r' || c = '\x0b' || c = '\x0c'

/-- Python's `s.strip()`. -/
def py_strip (s : String) : String :=
  String.mk (((s.toList.dropWhile pySpace).reverse.dropWhile pySpace).reverse)

/-- Python's `s.rstrip()`. -/
def py_rstrip (s : String) : String :=
  String.mk ((s.toList.reverse.dropWhile pySpace).reverse)

/-- JSON insignificant whitespace, skipped between tokens by `json.loads`. -/
def skipWs : List Char → List Char
  | [] => []
  | c :: t => if c = ' ' || c = '\t' || c = '\n' || c = '\r' then skipWs t else c :: t

/-- Parse the body of a JSON string literal after its opening quote,
returning the decoded characters and the input after the closing quote
(`\uXXXX` escapes are outside the model). -/
def parseStringBody : List Char → Option (List Char × List Char)
  | [] => none
  | '"' :: t => some ([], t)
  | '\\' :: e :: t =>
    (match e with
     | '"' => some '"'
     | '\\' => some '\\'
     | '/' => some '/'
     | 'n' => some '\n'
     | 't' => some '\t'
     | 'r' => some '\r'
     | 'b' => some '\x08'
     | 'f' => some '\x0c'
     | _ => none).bind fun c =>
      (parseStringBody t).map fun p : List Char × List Char => (c :: p.1, p.2)
  | ['\\'] => none
  | c :: t => (parseStringBody t).map fun p => (c :: p.1, p.2)

/-- Accumulate a decimal numeral. -/
def digitsToNat (acc : Nat) : List Char → Nat
  | [] => acc
  | c :: t => digitsToNat (acc * 10 + (c.toNat - 48)) t

mutual

/-- Fuel-indexed recursive-descent parser for one JSON value, following the
grammar `json.loads` accepts (with integer numerals only).  Every recursive
call spends one unit of fuel; `json_loads` supplies more fuel than any
input can consume. -/
def parseValue : Nat → List Char → Option (Json × List Char)
  | 0, _ => none
  | fuel + 1, s =>
    match skipWs s with
    | [] => none
    | c :: t =>
      if c = '"' then
        (parseStringBody t).map fun p => (Json.str (String.mk p.1), p.2)
      else if c = '[' then
        match skipWs t with
        | ']' :: r2 => some (Json.arr [], r2)
        | _ => (parseElems fuel t).map fun p => (Json.arr p.1, p.2)
      else if c = '\x7b' then
        match skipWs t with
        | '\x7d' :: r2 => some (Json.obj [], r2)
        | _ => (parseMembers fuel t).map fun p => (Json.obj p.1, p.2)
      else if c = 't' then
        match t with
        | 'r' :: 'u' :: 'e' :: r => some (Json.bool true, r)
        | _ => none
      else if c = 'f' then
        match t with
        | 'a' :: 'l' :: 's' :: 'e' :: r => some (Json.bool false, r)
        | _ => none
      else if c = 'n' then
        match t with
        | 'u' :: 'l' :: 'l' :: r => some (Json.null, r)
        | _ => none
      else if c = '-' then
        match t.takeWhile Char.isDigit with
        | [] => none
        | ds => some (Json.num (-(digitsToNat 0 ds : Int)), t.dropWhile Char.isDigit)
      else if c.isDigit then
        some (Json.num (digitsToNat 0 ((c :: t).takeWhile Char.isDigit) : Int),
          (c :: t).dropWhile Char.isDigit)
      else none

/-- Parse the comma-separated elements of a JSON array up to `]`. -/
def parseElems : Nat → List Char → Option (List Json × List Char)
  | 0, _ => none
  | fuel + 1, s =>
    (parseValue fuel s).bind fun p =>
      match skipWs p.2 with
      | ',' :: r2 => (parseElems fuel r2).map fun q => (p.1 :: q.1, q.2)
      | ']' :: r2 => some ([p.1], r2)
      | _ => none

/-- Parse the comma-separated `"key": value` members of a JSON object. -/
def parseMembers : Nat → List Char → Option (List (String × Json) × List Char)
  | 0, _ => none
  | fuel + 1, s =>
    match skipWs s with
    | '"' :: r =>
      (parseStringBody r).bind fun kp =>
        match skipWs kp.2 with
        | ':' :: r3 =>
          (parseValue fuel r3).bind fun vp =>
            match skipWs vp.2 with
            | ',' :: r5 => (parseMembers fuel r5).map fun q => ((String.mk kp.1, vp.1) :: q.1, q.2)
            | '\x7d' :: r5 => some ([(String.mk kp.1, vp.1)], r5)
            | _ => none
        | _ => none
    | _ => none

end

/-- Model of Python's `json.loads`: parse one value and require only
whitespace to remain.  The fuel bound suffices because every two units of
fuel consume at least one input character. -/
def json_loads (s : String) : Option Json :=
  match parseValue (2 * s.toList.length + 8) s.toList with
  | some (v, rest) => if skipWs rest = [] then some v else none
  | none => none

/-- Embedding of `MetadataManager.deserialize_metadata`
(metadata_manager.py lines 33-54): empty-after-strip input yields `None`;
a `json.JSONDecodeError` is caught and yields `None`; otherwise the
envelope-unwrapping logic runs with every exception caught to `None`. -/
def deserialize_metadata (metadata_str : String) : Option Json :=
  if py_strip metadata_str = "" then none
  else
    match json_loads metadata_str with
    | none => none
    | some data => deserialize_value data

/-- Embedding of the per-range checks of `MetadataManager.validate_metadata`
(metadata_manager.py lines 69-91): the item must be a dict holding integer
`start` and `end` and a string `source`, with `start >= 0`, `end >= 0`,
`start < end` and `source` in `manual` / `pasted`.  (Python's `bool` being
a subclass of `int` is not modelled; no claim depends on it.) -/
def validate_range_item (range_info : Json) : Bool :=
  match range_info with
  | .obj members =>
    match lookupKey members "start", lookupKey members "end", lookupKey members "source" with
    | some (.num s), some (.num e), some (.str src) =>
      decide (0 ≤ s) && decide (0 ≤ e) && decide (s < e) &&
        (src == "manual" || src == "pasted")
    | _, _, _ => false
  | _ => false

/-- Embedding of `MetadataManager.validate_metadata` (metadata_manager.py
lines 56-97): a dict with a `ranges` list whose items all pass
`validate_range_item`.  No ordering or disjointness check is performed. -/
def validate_metadata (metadata : Json) : Bool :=
  match metadata with
  | .obj members =>
    match lookupKey members "ranges" with
    | some (.arr ranges) => ranges.all validate_range_item
    | _ => false
  | _ => false

/-! Embedding of `FileManager._parse_lakra_content` (file_manager.py). -/

/-- The start delimiter literal of the embedded-metadata block. -/
def metadata_start_str : String := "<!-- GHOSTKEY_METADATA_START -->"

/-- The end delimiter literal of the embedded-metadata block. -/
def metadata_end_str : String := "<!-- GHOSTKEY_METADATA_END -->"

/-- Embedding of `FileManager._parse_lakra_content` (file_manager.py lines
74-109): no start delimiter — whole input is content, no metadata; start
delimiter but no end delimiter after it — content is the right-stripped
prefix before the start delimiter, no metadata; both delimiters — the
stripped text between them is handed to `deserialize_metadata`. -/
def parse_lakra_content (file_content : String) : String × Option Json :=
  let chars := file_content.toList
  match indexOfSub chars metadata_start_str.toList with
  | none => (file_content, none)
  | some metadata_start_idx =>
    let content := py_rstrip (String.mk (chars.take metadata_start_idx))
    let searchFrom := metadata_start_idx + metadata_start_str.toList.length
    match indexOfSub (chars.drop searchFrom) metadata_end_str.toList with
    | none => (content, none)
    | some j =>
      let metadata_json := py_strip (String.mk ((chars.drop searchFrom).take j))
      (content, deserialize_metadata metadata_json)

/-! Reference-level model of `merge_metadata` for the frame claim C10.
Python dicts are mutable heap objects; a `RangeHeap` models the heap and a
`Nat` index a reference to one range dict. -/

abbrev RangeHeap := List Range

/-- Dereference: reading `h[i]` (out-of-range reads never happen in the
modelled runs; a dummy dict keeps the function total). -/
def hGet (h : RangeHeap) (i : Nat) : Range :=
  h.getD i { start := 0, stop := 0, source := "", timestamp := 0 }

/-- In-place mutation of the dict at reference `i`, the model of
`merged_ranges[-1]['end'] = max(...)`. -/
def hSet (h : RangeHeap) (i : Nat) (r : Range) : RangeHeap := h.set i r

/-- Model of `range_info.copy()`: allocate a fresh dict holding `r` and
return its reference. -/
def hAlloc (h : RangeHeap) (r : Range) : RangeHeap × Nat := (h ++ [r], h.length)

/-- One iteration of the `merge_metadata` loop at the reference level;
`merged` holds the references of the output list in reverse order, so its
head is `merged_ranges[-1]`. -/
def merge_step_heap (acc : RangeHeap × List Nat) (idx : Nat) : RangeHeap × List Nat :=
  let h := acc.1
  let merged := acc.2
  match merged with
  | prevIdx :: rest =>
    let prev := hGet h prevIdx
    let cur := hGet h idx
    if prev.source = cur.source ∧ prev.stop ≥ cur.start then
      (hSet h prevIdx { prev with stop := max prev.stop cur.stop }, prevIdx :: rest)
    else
      let alloc := hAlloc h cur
      (alloc.1, alloc.2 :: prevIdx :: rest)
  | [] =>
    let alloc := hAlloc h (hGet h idx)
    (alloc.1, [alloc.2])

/-- Reference-level embedding of `MetadataManager.merge_metadata`: the two
inputs are the reference lists of the two metadata dicts' `ranges`; the
sort happens on references (keyed by the referenced dicts' `start`, the
heap being untouched until the loop) and the loop allocates copies for the
output, mutating only those copies.  Returns the final heap and the output
references in order. -/
def merge_metadata_heap (h : RangeHeap) (ids1 ids2 : List Nat) : RangeHeap × List Nat :=
  let all_ids := ids1 ++ ids2
  let sorted := all_ids.insertionSort (fun i j => (hGet h i).start ≤ (hGet h j).start)
  let res := sorted.foldl merge_step_heap (h, [])
  (res.1, res.2.reverse)

/-- Restatement of claim C7's description of deletion reconciliation:
drop every interval with `start >= L`, truncate `end > L` to `L`, drop an
interval that truncation collapsed, leave the rest unchanged. -/
def drop_truncate_spec (current_length : Int) (ranges : List Range) : List Range :=
  ranges.filterMap fun r =>
    if current_length ≤ r.start then none
    else
      let r' := if current_length < r.stop then { r with stop := current_length } else r
      if r'.start < r'.stop then some r' else none

theorem foldl_coalesce_touch (l : List Range) :
    ∀ (out : List Range) (a : Range),
      List.foldl coalesce_touch_step (out ++ [a]) l = out ++ coalesce_touch_rec (a :: l) := by
  induction l with
  | nil =>
    intro out a
    simp [coalesce_touch_rec]
  | cons r rs ih =>
    intro out a
    rw [List.foldl_cons]
    by_cases h : a.source = r.source ∧ a.stop = r.start
    · have hstep : coalesce_touch_step (out ++ [a]) r =
          out ++ [{ a with stop := r.stop }] := by
        unfold coalesce_touch_step
        rw [List.getLast?_concat]
        simp only [h, and_self, if_true, List.dropLast_concat]
      rw [hstep, ih out { a with stop := r.stop }]
      rw [coalesce_touch_rec.eq_3, if_pos h]
    · have hstep : coalesce_touch_step (out ++ [a]) r = (out ++ [a]) ++ [r] := by
        unfold coalesce_touch_step
        rw [List.getLast?_concat]
        simp only [h, if_false]
      rw [hstep, ih (out ++ [a]) r]
      rw [coalesce_touch_rec.eq_3, if_neg h, List.append_assoc]
      simp

theorem coalesce_touch_eq_rec (l : List Range) : coalesce_touch l = coalesce_touch_rec l := by
  cases l with
  | nil => rw [coalesce_touch_rec.eq_1]; rfl
  | cons r rs =>
    have h0 : coalesce_touch_step [] r = [] ++ [r] := by
      unfold coalesce_touch_step
      simp
    show List.foldl coalesce_touch_step [] (r :: rs) = _
    rw [List.foldl_cons, h0, foldl_coalesce_touch rs [] r]
    simp

/-! Invariant machinery for the disjointness claim. -/

theorem disjR_symm : ∀ {a b : Range}, disjR a b → disjR b a := fun h => h.symm

theorem truncate_range_spec {L : Int} {a x : Range} (hx : truncate_range L a = some x) :
    x.start = a.start ∧ x.stop ≤ a.stop ∧ x.start < x.stop := by
  simp only [truncate_range] at hx
  split_ifs at hx with h1 h2
  cases hx
  dsimp only at h2 ⊢
  omega

theorem handle_deletions_wf {l : List Range} (h : WF l) (L : Int) :
    WF (handle_deletions L l) := by
  obtain ⟨hp, hne⟩ := h
  constructor
  · rw [handle_deletions, List.pairwise_filterMap]
    refine hp.imp ?_
    intro a b hab x hx y hy
    rw [Option.mem_def] at hx hy
    have h1 := truncate_range_spec hx
    have h2 := truncate_range_spec hy
    omega
  · intro r hr
    rw [handle_deletions, List.mem_filterMap] at hr
    obtain ⟨a, _, hfa⟩ := hr
    exact (truncate_range_spec hfa).2.2

theorem splitPieces_mem {p e : Int} {r q : Range} (hq : q ∈ splitPieces p e r) :
    (q.start = r.start ∧ q.stop ≤ r.stop ∧ q.stop ≤ p) ∨
    (e ≤ q.start ∧ r.start + (e - p) ≤ q.start ∧ q.stop = r.stop + (e - p)) := by
  simp only [splitPieces] at hq
  split_ifs at hq with h1 h2 h3 h4 <;> simp at hq
  · subst hq; exact Or.inl ⟨rfl, le_refl _, h1⟩
  · subst hq; right; dsimp only; omega
  · rcases hq with rfl | rfl
    · left; dsimp only; omega
    · right; dsimp only; omega
  · subst hq; left; dsimp only; omega
  · subst hq; right; dsimp only; omega

theorem splitPieces_proper {p e : Int} {r q : Range} (hr : r.start < r.stop)
    (hq : q ∈ splitPieces p e r) : q.start < q.stop := by
  simp only [splitPieces] at hq
  split_ifs at hq with h1 h2 h3 h4 <;> simp at hq
  · subst hq; exact hr
  · subst hq; dsimp only; omega
  · rcases hq with rfl | rfl <;> dsimp only <;> omega
  · subst hq; dsimp only; omega
  · subst hq; dsimp only; omega

theorem splitPieces_pairwise {p e : Int} (hpe : p ≤ e) (r : Range) :
    List.Pairwise (fun a b => a.stop ≤ b.start) (splitPieces p e r) := by
  unfold splitPieces
  split_ifs <;> simp
  omega

theorem flatMap_pairwise_disj {p e : Int} (hpe : p ≤ e) {l : List Range} (hwf : WF l) :
    List.Pairwise disjR (l.flatMap (splitPieces p e)) := by
  rw [List.pairwise_flatMap]
  constructor
  · intro a _
    exact (splitPieces_pairwise hpe a).imp fun h => Or.inl h
  · refine hwf.1.imp ?_
    intro a b hab x hx y hy
    rcases splitPieces_mem hx with h1 | h1 <;> rcases splitPieces_mem hy with h2 | h2 <;>
      unfold disjR <;> omega

theorem flatMap_disj_new {p e now : Int} {src : String} {l : List Range}
    {q : Range} (hq : q ∈ l.flatMap (splitPieces p e)) :
    disjR q { start := p, stop := e, source := src, timestamp := now } := by
  rw [List.mem_flatMap] at hq
  obtain ⟨a, _, hqa⟩ := hq
  rcases splitPieces_mem hqa with h1 | h1 <;> unfold disjR <;> simp <;> omega

theorem wf_of_sorted {l : List Range} (hd : List.Pairwise disjR l)
    (hne : ∀ r ∈ l, r.start < r.stop) : WF (sort_by_start l) := by
  haveI : IsTotal Range (fun a b => a.start ≤ b.start) := ⟨fun a b => le_total a.start b.start⟩
  haveI : IsTrans Range (fun a b => a.start ≤ b.start) :=
    ⟨fun _ _ _ h1 h2 => le_trans h1 h2⟩
  have hperm : (sort_by_start l).Perm l :=
    List.perm_insertionSort (fun a b : Range => a.start ≤ b.start) l
  have hsorted : List.Sorted (fun a b : Range => a.start ≤ b.start) (sort_by_start l) :=
    List.sorted_insertionSort _ l
  have hd' : List.Pairwise disjR (sort_by_start l) :=
    (hperm.pairwise_iff disjR_symm).mpr hd
  have hne' : ∀ r ∈ sort_by_start l, r.start < r.stop := fun r hr => hne r (hperm.mem_iff.mp hr)
  refine ⟨?_, hne'⟩
  refine (hsorted.and hd').imp_of_mem ?_
  intro a b _ hb hab
  rcases hab.2 with h | h
  · exact h
  · have := hne' b hb
    omega

theorem pairwise_of_chain_proper : ∀ {l : List Range},
    List.Chain' (fun a b : Range => a.stop ≤ b.start) l → (∀ r ∈ l, r.start < r.stop) →
    List.Pairwise (fun a b : Range => a.stop ≤ b.start) l := by
  intro l
  induction l with
  | nil => simp
  | cons a t ih =>
    intro hc hp
    rw [List.chain'_cons'] at hc
    have hpl := ih hc.2 fun r hr => hp r (List.mem_cons_of_mem _ hr)
    rw [List.pairwise_cons]
    refine ⟨?_, hpl⟩
    intro b hb
    cases t with
    | nil => cases hb
    | cons c t' =>
      have hac : a.stop ≤ c.start := hc.1 c rfl
      rcases List.mem_cons.mp hb with rfl | hb'
      · exact hac
      · have h1 := (List.pairwise_cons.mp hpl).1 b hb'
        have h2 := hp c (by simp)
        omega

theorem coalesce_touch_rec_head (l : List Range) :
    ∀ a t, l = a :: t → ∃ a' t', coalesce_touch_rec l = a' :: t' ∧ a'.start = a.start := by
  induction l using coalesce_touch_rec.induct with
  | case1 => intro a t h; cases h
  | case2 r =>
    intro a t h
    cases h
    exact ⟨r, [], coalesce_touch_rec.eq_2 r, rfl⟩
  | case3 a b rs hcond ih =>
    intro a0 t h
    cases h
    obtain ⟨a', t', heq, hstart⟩ := ih _ _ rfl
    refine ⟨a', t', ?_, ?_⟩
    · rw [coalesce_touch_rec.eq_3, if_pos hcond]; exact heq
    · rw [hstart]
  | case4 a b rs hcond ih =>
    intro a0 t h
    cases h
    rw [coalesce_touch_rec.eq_3, if_neg hcond]
    exact ⟨a, _, rfl, rfl⟩

theorem coalesce_touch_rec_wf (l : List Range) :
    List.Chain' (fun a b : Range => a.stop ≤ b.start) l → (∀ r ∈ l, r.start < r.stop) →
    List.Chain' (fun a b : Range => a.stop ≤ b.start) (coalesce_touch_rec l) ∧
      ∀ r ∈ coalesce_touch_rec l, r.start < r.stop := by
  induction l using coalesce_touch_rec.induct with
  | case1 =>
    intro _ _
    rw [coalesce_touch_rec.eq_1]
    exact ⟨List.chain'_nil, by simp⟩
  | case2 r =>
    intro _ h2
    rw [coalesce_touch_rec.eq_2]
    exact ⟨List.chain'_singleton r, h2⟩
  | case3 a b rs hcond ih =>
    intro h1 h2
    rw [List.chain'_cons] at h1
    rw [coalesce_touch_rec.eq_3, if_pos hcond]
    apply ih
    · rw [List.chain'_cons']
      refine ⟨?_, (List.chain'_cons'.mp h1.2).2⟩
      intro y hy
      have := (List.chain'_cons'.mp h1.2).1 y hy
      dsimp only
      exact this
    · intro r hr
      rcases List.mem_cons.mp hr with rfl | hr'
      · dsimp only
        have ha := h2 a (by simp)
        have hb := h2 b (by simp)
        omega
      · exact h2 r (by simp [hr'])
  | case4 a b rs hcond ih =>
    intro h1 h2
    rw [List.chain'_cons] at h1
    rw [coalesce_touch_rec.eq_3, if_neg hcond]
    obtain ⟨hchain, hprop⟩ := ih h1.2 fun r hr => h2 r (List.mem_cons_of_mem _ hr)
    constructor
    · rw [List.chain'_cons']
      refine ⟨?_, hchain⟩
      intro y hy
      obtain ⟨a', t', heq, hstart⟩ := coalesce_touch_rec_head (b :: rs) b rs rfl
      rw [heq] at hy
      simp at hy
      subst hy
      rw [hstart]
      exact h1.1
    · intro r hr
      rcases List.mem_cons.mp hr with rfl | hr'
      · exact h2 r (by simp)
      · exact hprop r hr'

theorem update_ranges_wf {l : List Range} (hwf : WF l) (now L p e : Int) (src : String)
    (hpe : p < e) : WF (update_ranges now L p e src l) := by
  unfold update_ranges
  have h1 := handle_deletions_wf hwf L
  set dl := handle_deletions L l with hdl
  set newR : Range := { start := p, stop := e, source := src, timestamp := now } with hnewR
  have hpair : List.Pairwise disjR (dl.flatMap (splitPieces p e) ++ [newR]) := by
    rw [List.pairwise_append]
    refine ⟨flatMap_pairwise_disj hpe.le h1, List.pairwise_singleton _ _, ?_⟩
    intro a ha b hb
    simp at hb
    subst hb
    exact flatMap_disj_new ha
  have hprop : ∀ r ∈ dl.flatMap (splitPieces p e) ++ [newR], r.start < r.stop := by
    intro r hr
    rcases List.mem_append.mp hr with hr' | hr'
    · rw [List.mem_flatMap] at hr'
      obtain ⟨a, ha, hra⟩ := hr'
      exact splitPieces_proper (h1.2 a ha) hra
    · simp at hr'
      subst hr'
      exact hpe
  have hs := wf_of_sorted hpair hprop
  rw [coalesce_touch_eq_rec]
  obtain ⟨hc, hp⟩ := coalesce_touch_rec_wf _ hs.1.chain' hs.2
  exact ⟨pairwise_of_chain_proper hc hp, hp⟩

theorem applyOp_wf {rs : List Range} (hwf : WF rs) {op : InsOp} (hop : okOp op) :
    WF (applyOp rs op) := by
  cases op with
  | manualOp L t p ch =>
    apply update_ranges_wf hwf
    have : (0 : Int) < (ch.length : Int) := by exact_mod_cast hop.2
    omega
  | pasteOp L t p c =>
    have hc : ¬(c = "") := by
      intro h
      subst h
      exact absurd hop.2 (by decide)
    show WF (track_paste_input L t p c rs)
    rw [track_paste_input, if_neg hc]
    apply update_ranges_wf hwf
    have : (0 : Int) < (c.length : Int) := by exact_mod_cast hop.2
    omega

theorem foldl_applyOp_wf (ops : List InsOp) (h : ∀ op ∈ ops, okOp op) :
    ∀ {rs : List Range}, WF rs → WF (ops.foldl applyOp rs) := by
  induction ops with
  | nil => intro rs h0; exact h0
  | cons op ops ih =>
    intro rs h0
    rw [List.foldl_cons]
    exact ih (fun o ho => h o (List.mem_cons_of_mem _ ho)) (applyOp_wf h0 (h op (by simp)))

/-! Equivalence of the loop-shaped and structural merge coalescing pass. -/

theorem foldl_coalesce_overlap (l : List Range) :
    ∀ (out : List Range) (a : Range),
      List.foldl coalesce_overlap_step (out ++ [a]) l = out ++ coalesce_overlap_rec (a :: l) := by
  induction l with
  | nil =>
    intro out a
    simp [coalesce_overlap_rec]
  | cons r rs ih =>
    intro out a
    rw [List.foldl_cons]
    by_cases h : a.source = r.source ∧ a.stop ≥ r.start
    · have hstep : coalesce_overlap_step (out ++ [a]) r =
          out ++ [{ a with stop := max a.stop r.stop }] := by
        unfold coalesce_overlap_step
        rw [List.getLast?_concat]
        simp only [h, and_self, if_true, List.dropLast_concat]

      rw [hstep, ih out { a with stop := max a.stop r.stop }]
      rw [coalesce_overlap_rec.eq_3, if_pos h]
    · have hstep : coalesce_overlap_step (out ++ [a]) r = (out ++ [a]) ++ [r] := by
        unfold coalesce_overlap_step
        rw [List.getLast?_concat]
        simp only [h, if_false]
      rw [hstep, ih (out ++ [a]) r]
      rw [coalesce_overlap_rec.eq_3, if_neg h, List.append_assoc]
      simp

theorem coalesce_overlap_eq_rec (l : List Range) :
    coalesce_overlap l = coalesce_overlap_rec l := by
  cases l with
  | nil => rw [coalesce_overlap_rec.eq_1]; rfl
  | cons r rs =>
    have h0 : coalesce_overlap_step [] r = [] ++ [r] := by
      unfold coalesce_overlap_step
      simp
    show List.foldl coalesce_overlap_step [] (r :: rs) = _
    rw [List.foldl_cons, h0, foldl_coalesce_overlap rs [] r]
    simp

/-- Claim C6: `merge_metadata` returns exactly the set obtained by
concatenating both inputs' intervals, sorting by `start`, and running the
single left-to-right coalescing pass that fuses an interval into the
previous output interval exactly when sources agree and
`prev.end >= current.start`, taking the maximum of the two ends
(`coalesce_overlap_rec`, transcribed from the spec's wording); and the
output's version is the Combinator's own `mm_version`, whatever the input
versions were. -/
theorem C6_merge_characterisation (a b : Metadata) :
    merge_metadata (some a) (some b) =
      { version := mm_version,
        ranges := coalesce_overlap_rec (sort_by_start (a.ranges ++ b.ranges)) } ∧
    (merge_metadata (some a) (some b)).version = mm_version := by
  constructor
  · show Metadata.mk mm_version (coalesce_overlap (sort_by_start (a.ranges ++ b.ranges))) = _
    rw [coalesce_overlap_eq_rec]
  · rfl

/-- Claim C1: starting from the empty provenance set, any finite sequence
of `track_manual_input` / `track_paste_input` operations with non-negative
position and positive inserted length leaves the range list sorted
ascending by `start` with consecutive ranges disjoint
(`a.stop ≤ b.start`). -/
theorem C1_insertion_disjointness (ops : List InsOp) (h : ∀ op ∈ ops, okOp op) :
    List.Chain' (fun a b : Range => a.start ≤ b.start) (ops.foldl applyOp []) ∧
    List.Chain' (fun a b : Range => a.stop ≤ b.start) (ops.foldl applyOp []) := by
  have hwf : WF (ops.foldl applyOp []) :=
    foldl_applyOp_wf ops h ⟨List.Pairwise.nil, by simp⟩
  refine ⟨?_, hwf.1.chain'⟩
  refine (hwf.1.imp_of_mem ?_).chain'
  intro a b ha _ hab
  have := hwf.2 a ha
  omega

theorem C1_insertion_disjointness_witness :
    List.Chain' (fun a b : Range => a.start ≤ b.start)
      ([InsOp.manualOp 5 0 0 "hello", InsOp.pasteOp 6 1 5 "!"].foldl applyOp []) ∧
    List.Chain' (fun a b : Range => a.stop ≤ b.start)
      ([InsOp.manualOp 5 0 0 "hello", InsOp.pasteOp 6 1 5 "!"].foldl applyOp []) := by
  apply C1_insertion_disjointness
  intro op hop
  rcases List.mem_cons.mp hop with rfl | hop'
  · exact ⟨by decide, by decide⟩
  rcases List.mem_cons.mp hop' with rfl | hop''
  · exact ⟨by decide, by decide⟩
  · cases hop''

/-- Claim C2, counterexample: a zero-length `track_manual_input` request
(empty `character`) is not rejected as a no-op — on the empty set at
position 0 it adds the degenerate interval `[0, 0)`, so the provenance set
is changed. -/
theorem C2_counterexample :
    track_manual_input 0 0 0 "" [] =
      [{ start := 0, stop := 0, source := "manual", timestamp := 0 }] ∧
    track_manual_input 0 0 0 "" [] ≠ ([] : List Range) := by
  constructor
  · decide
  · decide

/-- Claim C2 as amended: `track_paste_input` with empty content is a
silent no-op leaving the set unchanged, but a zero-length
`track_manual_input` request is not rejected — on an empty set it inserts
the degenerate interval `[p, p)`; no exception escapes either path (both
are total functions on the model). -/
theorem C2_amended_zero_length_behaviour :
    (∀ (L now p : Int) (ranges : List Range), track_paste_input L now p "" ranges = ranges) ∧
    (∀ L now p : Int, track_manual_input L now p "" [] =
      [{ start := p, stop := p, source := "manual", timestamp := now }]) := by
  constructor
  · intro L now p ranges
    rfl
  · intro L now p
    show update_ranges now L p (p + (("".length : Nat) : Int)) "manual" [] = _
    simp [update_ranges, handle_deletions, sort_by_start, coalesce_touch,
      coalesce_touch_step, List.insertionSort]

/-- Claim C7: deletion reconciliation drops every interval with
`start >= current_buffer_length`, truncates every interval with
`end > current_buffer_length` to that length, drops an interval that
truncation collapses to zero length and leaves all remaining intervals
unchanged (`drop_truncate_spec`, transcribed from the claim's wording);
this holds on every range list satisfying the data-model invariant
`start < end`, and the spec scenario `{0,10,Manual}` reconciled against
buffer length 6 yields `{0,6,Manual}`. -/
theorem C7_handle_deletions_correct :
    (∀ (L : Int) (ranges : List Range), (∀ r ∈ ranges, r.start < r.stop) →
      handle_deletions L ranges = drop_truncate_spec L ranges) ∧
    ∀ t : Int,
      handle_deletions 6 [{ start := 0, stop := 10, source := "manual", timestamp := t }] =
        [{ start := 0, stop := 6, source := "manual", timestamp := t }] := by
  constructor
  · intro L ranges h
    unfold handle_deletions drop_truncate_spec
    apply List.filterMap_congr
    intro r hr
    have hne := h r hr
    by_cases h1 : L ≤ r.start
    · simp [truncate_range, h1]
    · by_cases h2 : L < r.stop
      · have hmin : min r.stop L = L := by omega
        simp [truncate_range, h1, h2, hmin]
      · have hmin : min r.stop L = r.stop := by omega
        simp [truncate_range, h1, h2, hmin]
  · intro t
    norm_num [handle_deletions, List.filterMap_cons, truncate_range]

theorem C7_handle_deletions_correct_witness :
    handle_deletions 6 [{ start := 0, stop := 10, source := "manual", timestamp := 0 }] =
      drop_truncate_spec 6 [{ start := 0, stop := 10, source := "manual", timestamp := 0 }] ∧
    handle_deletions 6 [{ start := 0, stop := 10, source := "manual", timestamp := 0 }] =
      [{ start := 0, stop := 6, source := "manual", timestamp := 0 }] :=
  ⟨C7_handle_deletions_correct.1 6 _ (by decide), C7_handle_deletions_correct.2 0⟩

/-- Claim C3: decoding the encoding of any metadata value returns exactly
the value that was wrapped, so in particular its `ranges` field is
unchanged — only the envelope's own `version` and `created` fields are
added and stripped by the round trip.  (The `json.dumps`/`json.loads`
textual stage is Python standard-library code, treated as the identity
bridge between JSON values and text.) -/
theorem C3_roundtrip (now : Int) (S : Json) :
    deserialize_value (serialize_metadata_value now S) = some S ∧
    (deserialize_value (serialize_metadata_value now S)).bind (fun d => pySubscript d "ranges") =
      pySubscript S "ranges" := by
  constructor
  · rfl
  · rfl

/-- Claim C8: `validate_metadata` is a structural check only — it accepts
every dict whose `ranges` list consists of dicts with integer
`start >= 0`, `end >= 0`, `start < end` and a `source` string in
`manual` / `pasted`, without checking ordering or disjointness; in
particular a caller-constructed set holding two overlapping intervals
(`[0,5)` and `[3,8)`, both manual) still validates. -/
theorem C8_validate_structural :
    (∀ (members : List (String × Json)) (items : List Json),
      lookupKey members "ranges" = some (.arr items) →
      (∀ it ∈ items, ∃ m : List (String × Json), ∃ a b : Int, ∃ src : String,
        it = .obj m ∧ lookupKey m "start" = some (.num a) ∧
        lookupKey m "end" = some (.num b) ∧ lookupKey m "source" = some (.str src) ∧
        0 ≤ a ∧ 0 ≤ b ∧ a < b ∧ (src = "manual" ∨ src = "pasted")) →
      validate_metadata (.obj members) = true) ∧
    validate_metadata (.obj [("ranges", .arr [
      .obj [("start", .num 0), ("end", .num 5), ("source", .str "manual")],
      .obj [("start", .num 3), ("end", .num 8), ("source", .str "manual")]])]) = true := by
  constructor
  · intro members items hr hitems
    simp only [validate_metadata]
    rw [hr]
    show items.all validate_range_item = true
    rw [List.all_eq_true]
    intro it hit
    obtain ⟨m, a0, b0, src, rfl, h1, h2, h3, ha, hb, hab, hsrc⟩ := hitems it hit
    simp only [validate_range_item]
    rw [h1, h2, h3]
    show (decide (0 ≤ a0) && decide (0 ≤ b0) && decide (a0 < b0) &&
      (src == "manual" || src == "pasted")) = true
    simp only [Bool.and_eq_true, decide_eq_true_eq, beq_iff_eq, Bool.or_eq_true]
    exact ⟨⟨⟨ha, hb⟩, hab⟩, hsrc⟩
  · rfl

theorem C8_validate_structural_witness :
    validate_metadata (.obj [("ranges", .arr [
      .obj [("start", .num 0), ("end", .num 5), ("source", .str "manual")]])]) = true := by
  apply C8_validate_structural.1
    [("ranges", Json.arr [Json.obj
      [("start", Json.num 0), ("end", Json.num 5), ("source", Json.str "manual")]])]
    [Json.obj [("start", Json.num 0), ("end", Json.num 5), ("source", Json.str "manual")]] rfl
  intro it hit
  rcases List.mem_singleton.mp hit with rfl
  exact ⟨_, 0, 5, "manual", rfl, rfl, rfl, rfl, by omega, by omega, by omega, Or.inl rfl⟩

/-- Claim C9, counterexample: when the start delimiter is present and the
end delimiter missing, the content returned is NOT "everything before the
start delimiter" — the code right-strips it.  On `"ab \n" ++ start-delim`
the content comes back as `"ab"`, not `"ab \n"`. -/
theorem C9_counterexample :
    parse_lakra_content ("ab \n" ++ metadata_start_str) = ("ab", none) ∧
    ("ab" : String) ≠ "ab \n" := by
  constructor
  · rfl
  · decide

/-- Claim C9 as amended: if the start delimiter is absent, parsing returns
the entire input unchanged as content with no metadata; if the start
delimiter is present but the end delimiter is missing after it, parsing
returns the text before the start delimiter with trailing whitespace
stripped as content, and metadata is absent rather than an error. -/
theorem C9_amended_parse_lakra (s : String) :
    (indexOfSub s.toList metadata_start_str.toList = none →
      parse_lakra_content s = (s, none)) ∧
    (∀ i, indexOfSub s.toList metadata_start_str.toList = some i →
      indexOfSub (s.toList.drop (i + metadata_start_str.toList.length))
        metadata_end_str.toList = none →
      parse_lakra_content s = (py_rstrip (String.mk (s.toList.take i)), none)) := by
  constructor
  · intro h
    simp only [parse_lakra_content]
    rw [h]
  · intro i h1 h2
    simp only [parse_lakra_content]
    rw [h1]
    show (match indexOfSub (s.toList.drop (i + metadata_start_str.toList.length))
        metadata_end_str.toList with
      | none => (py_rstrip (String.mk (s.toList.take i)), (none : Option Json))
      | some j =>
        (py_rstrip (String.mk (s.toList.take i)),
          deserialize_metadata (py_strip (String.mk
            ((s.toList.drop (i + metadata_start_str.toList.length)).take j))))) =
      (py_rstrip (String.mk (s.toList.take i)), none)
    rw [h2]

theorem C9_amended_parse_lakra_witness :
    parse_lakra_content "hello" = ("hello", none) ∧
    parse_lakra_content ("ab \n" ++ metadata_start_str) =
      (py_rstrip (String.mk (("ab \n" ++ metadata_start_str).toList.take 4)), none) :=
  ⟨(C9_amended_parse_lakra "hello").1 (by decide),
   (C9_amended_parse_lakra ("ab \n" ++ metadata_start_str)).2 4 (by decide) (by decide)⟩

/-- Claim C5: `deserialize_metadata` never propagates an exception — it is
a total function into `Option Json`, every caught-exception path yielding
`none`: input empty after stripping gives `none`; input `json.loads`
rejects gives `none`; a parsed versioned envelope yields its `data`
member; a parsed legacy object carrying a `ranges` key yields the object
itself; and concretely `decode("")` and `decode("not json")` are both
`none`. -/
theorem C5_decode_total :
    (∀ s : String, py_strip s = "" → deserialize_metadata s = none) ∧
    (∀ s : String, json_loads s = none → deserialize_metadata s = none) ∧
    (∀ (s : String) (kvs : List (String × Json)) (inner d : Json),
      py_strip s ≠ "" → json_loads s = some (.obj kvs) →
      lookupKey kvs "ghostkey_metadata" = some inner →
      pySubscript inner "data" = some d →
      deserialize_metadata s = some d) ∧
    (∀ (s : String) (kvs : List (String × Json)) (rv : Json),
      py_strip s ≠ "" → json_loads s = some (.obj kvs) →
      lookupKey kvs "ghostkey_metadata" = none →
      lookupKey kvs "ranges" = some rv →
      deserialize_metadata s = some (.obj kvs)) ∧
    deserialize_metadata "" = none ∧
    deserialize_metadata "not json" = none := by
  refine ⟨?_, ?_, ?_, ?_, rfl, rfl⟩
  · intro s h
    simp [deserialize_metadata, h]
  · intro s h
    unfold deserialize_metadata
    split_ifs with h1
    · rfl
    · rw [h]
  · intro s kvs inner d h0 h1 h2 h3
    simp only [deserialize_metadata]
    rw [if_neg h0, h1]
    show deserialize_value (.obj kvs) = some d
    have e1 : pyIn "ghostkey_metadata" (Json.obj kvs) = some true := by simp [pyIn, h2]
    have e2 : pySubscript (Json.obj kvs) "ghostkey_metadata" = some inner := h2
    simp only [deserialize_value, e1]
    rw [e2]
    simpa using h3
  · intro s kvs rv h0 h1 h2 h3
    simp only [deserialize_metadata]
    rw [if_neg h0, h1]
    show deserialize_value (.obj kvs) = some (.obj kvs)
    have e1 : pyIn "ghostkey_metadata" (Json.obj kvs) = some false := by simp [pyIn, h2]
    have e2 : pyIn "ranges" (Json.obj kvs) = some true := by simp [pyIn, h3]
    simp [deserialize_value, e1, e2]

theorem C5_decode_total_witness :
    deserialize_metadata "   " = none ∧
    deserialize_metadata "[1,2" = none ∧
    deserialize_metadata
        "\x7b\"ghostkey_metadata\":\x7b\"version\":\"9\",\"created\":3,\"data\":\x7b\"ranges\":[]\x7d\x7d\x7d"
      = some (.obj [("ranges", .arr [])]) ∧
    deserialize_metadata "\x7b\"ranges\":[]\x7d" = some (.obj [("ranges", .arr [])]) :=
  ⟨C5_decode_total.1 "   " (by decide),
   C5_decode_total.2.1 "[1,2" (by rfl),
   C5_decode_total.2.2.1 _
     [("ghostkey_metadata", .obj [("version", .str "9"), ("created", .num 3),
       ("data", .obj [("ranges", .arr [])])])]
     (.obj [("version", .str "9"), ("created", .num 3), ("data", .obj [("ranges", .arr [])])])
     (.obj [("ranges", .arr [])])
     (by decide) (by rfl) (by rfl) (by rfl),
   C5_decode_total.2.2.2.1 _ [("ranges", .arr [])] (.arr [])
     (by decide) (by rfl) (by rfl) (by rfl)⟩

theorem stats_foldl_tracked (ranges : List Range) :
    ∀ acc : Int × Int × Int × Nat × Nat,
      (ranges.foldl stats_step acc).1 = acc.1 + ((ranges.map fun r => r.stop - r.start).sum) := by
  induction ranges with
  | nil => intro acc; simp
  | cons r rs ih =>
    intro acc
    rw [List.foldl_cons, ih]
    have hstep : (stats_step acc r).1 = acc.1 + (r.stop - r.start) := by
      obtain ⟨t, ty, pa, tn, pn⟩ := acc
      simp only [stats_step]
      split_ifs <;> rfl
    rw [hstep]
    simp
    ring

theorem stats_foldl_typed_pasted (ranges : List Range)
    (hsrc : ∀ r ∈ ranges, r.source = "manual" ∨ r.source = "pasted")
    (hlen : ∀ r ∈ ranges, r.start ≤ r.stop) :
    ∀ acc : Int × Int × Int × Nat × Nat,
      (ranges.foldl stats_step acc).2.1 + (ranges.foldl stats_step acc).2.2.1 =
        acc.2.1 + acc.2.2.1 + ((ranges.map fun r => r.stop - r.start).sum) ∧
      acc.2.1 ≤ (ranges.foldl stats_step acc).2.1 ∧
      acc.2.2.1 ≤ (ranges.foldl stats_step acc).2.2.1 := by
  induction ranges with
  | nil => intro acc; simp
  | cons r rs ih =>
    intro acc
    rw [List.foldl_cons]
    have hr := hsrc r (by simp)
    have hl := hlen r (by simp)
    have ihs := ih (fun x hx => hsrc x (by simp [hx])) (fun x hx => hlen x (by simp [hx]))
      (stats_step acc r)
    obtain ⟨t, ty, pa, tn, pn⟩ := acc
    have hstep : (stats_step (t, ty, pa, tn, pn) r).2.1 + (stats_step (t, ty, pa, tn, pn) r).2.2.1 =
        ty + pa + (r.stop - r.start) ∧
        ty ≤ (stats_step (t, ty, pa, tn, pn) r).2.1 ∧
        pa ≤ (stats_step (t, ty, pa, tn, pn) r).2.2.1 := by
      simp only [stats_step]
      rcases hr with h | h
      · rw [if_pos h]
        dsimp only
        omega
      · by_cases h' : r.source = "manual"
        · rw [if_pos h']
          dsimp only
          omega
        · rw [if_neg h', if_pos h]
          dsimp only
          omega
    obtain ⟨e1, e2, e3⟩ := ihs
    refine ⟨?_, le_trans hstep.2.1 e2, le_trans hstep.2.2 e3⟩
    rw [e1, hstep.1]
    simp
    ring

/-- Claim C4, counterexample: the three percentages do not always sum to
100.  With `total_length = 0` they all stay `0.0` (sum `0`), and with the
valid set `{0,10,manual}` against `total_length = 5` (buffer shorter than
the tracked span) the sum is `200`. -/
theorem C4_counterexample :
    ((get_stats (some (Metadata.mk "1.1" [])) 0).typed_percentage +
      (get_stats (some (Metadata.mk "1.1" [])) 0).pasted_percentage +
      (get_stats (some (Metadata.mk "1.1" [])) 0).unknown_percentage = 0) ∧
    ((get_stats (some (Metadata.mk "1.1" [Range.mk 0 10 "manual" 0])) 5).typed_percentage +
      (get_stats (some (Metadata.mk "1.1" [Range.mk 0 10 "manual" 0])) 5).pasted_percentage +
      (get_stats (some (Metadata.mk "1.1" [Range.mk 0 10 "manual" 0])) 5).unknown_percentage = 200) ∧
    (0 : ℚ) ≠ 100 ∧ (200 : ℚ) ≠ 100 := by
  refine ⟨by norm_num [get_stats, stats_step], by norm_num [get_stats, stats_step],
    by norm_num, by norm_num⟩

/-- Claim C4 as amended: for a Provenance Set whose intervals satisfy the
data-model invariants (non-negative lengths, sources `manual`/`pasted`)
and a `total_length` that is positive and at least the total tracked
length, the three percentages are each non-negative and sum to exactly 100
(in exact rational arithmetic; the Python floats round these values). -/
theorem C4_amended_stats_consistency (m : Metadata) (T : Int) (hT : 0 < T)
    (hlen : ∀ r ∈ m.ranges, r.start ≤ r.stop)
    (hsrc : ∀ r ∈ m.ranges, r.source = "manual" ∨ r.source = "pasted")
    (htr : ((m.ranges.map fun r => r.stop - r.start).sum) ≤ T) :
    (get_stats (some m) T).typed_percentage + (get_stats (some m) T).pasted_percentage +
      (get_stats (some m) T).unknown_percentage = 100 ∧
    0 ≤ (get_stats (some m) T).typed_percentage ∧
    0 ≤ (get_stats (some m) T).pasted_percentage ∧
    0 ≤ (get_stats (some m) T).unknown_percentage := by
  have h1 := stats_foldl_tracked m.ranges (0, 0, 0, 0, 0)
  have h2 := stats_foldl_typed_pasted m.ranges hsrc hlen (0, 0, 0, 0, 0)
  simp only [get_stats]
  set acc := m.ranges.foldl stats_step (0, 0, 0, 0, 0) with hacc
  obtain ⟨h2a, h2b, h2c⟩ := h2
  simp only at h1 h2a h2b h2c
  simp only [if_pos hT]
  have hsum : ((m.ranges.map fun r => r.stop - r.start).sum) = acc.1 := by omega
  have hunk : max 0 (T - acc.1) = T - acc.1 := by omega
  rw [hunk]
  have hT0 : (T : ℚ) ≠ 0 := by
    exact_mod_cast hT.ne'
  have key : (acc.2.1 : ℚ) + (acc.2.2.1 : ℚ) + ((T : ℚ) - (acc.1 : ℚ)) = (T : ℚ) := by
    have : acc.2.1 + acc.2.2.1 + (T - acc.1) = T := by omega
    exact_mod_cast this
  refine ⟨?_, ?_, ?_, ?_⟩
  · push_cast
    field_simp
    linear_combination (100 : ℚ) * key
  · have : (0 : ℚ) ≤ (acc.2.1 : ℚ) := by exact_mod_cast h2b
    have hTq : (0 : ℚ) < (T : ℚ) := by exact_mod_cast hT
    positivity
  · have : (0 : ℚ) ≤ (acc.2.2.1 : ℚ) := by exact_mod_cast h2c
    have hTq : (0 : ℚ) < (T : ℚ) := by exact_mod_cast hT
    positivity
  · have : (0 : ℚ) ≤ ((T - acc.1 : Int) : ℚ) := by
      have : (0 : Int) ≤ T - acc.1 := by omega
      exact_mod_cast this
    have hTq : (0 : ℚ) < (T : ℚ) := by exact_mod_cast hT
    push_cast at this ⊢
    positivity

theorem C4_amended_stats_consistency_witness :
    (get_stats (some (Metadata.mk "1.1" [Range.mk 0 5 "manual" 0])) 10).typed_percentage +
      (get_stats (some (Metadata.mk "1.1" [Range.mk 0 5 "manual" 0])) 10).pasted_percentage +
      (get_stats (some (Metadata.mk "1.1" [Range.mk 0 5 "manual" 0])) 10).unknown_percentage = 100 :=
  (C4_amended_stats_consistency (Metadata.mk "1.1" [Range.mk 0 5 "manual" 0])
    10 (by decide)
    (by intro r hr; rcases List.mem_singleton.mp hr with rfl; decide)
    (by intro r hr; rcases List.mem_singleton.mp hr with rfl; left; rfl)
    (by decide)).1

theorem merge_step_heap_frame {h0 : RangeHeap} {st : RangeHeap × List Nat} (idx : Nat)
    (H : h0.length ≤ st.1.length ∧ (∀ i, i < h0.length → hGet st.1 i = hGet h0 i) ∧
      ∀ j ∈ st.2, h0.length ≤ j) :
    h0.length ≤ (merge_step_heap st idx).1.length ∧
      (∀ i, i < h0.length → hGet (merge_step_heap st idx).1 i = hGet h0 i) ∧
      ∀ j ∈ (merge_step_heap st idx).2, h0.length ≤ j := by
  obtain ⟨hlen, hget, hids⟩ := H
  obtain ⟨h, ids⟩ := st
  simp only at hlen hget hids
  have halloc : ∀ r : Range, h0.length ≤ (h ++ [r]).length ∧
      (∀ i, i < h0.length → hGet (h ++ [r]) i = hGet h0 i) := by
    intro r
    constructor
    · simp
      omega
    · intro i hi
      have : i < h.length := lt_of_lt_of_le hi hlen
      simp only [hGet]
      rw [List.getD_append _ _ _ _ this]
      exact hget i hi
  cases ids with
  | nil =>
    simp only [merge_step_heap, hAlloc]
    refine ⟨(halloc _).1, (halloc _).2, ?_⟩
    intro j hj
    simp at hj
    omega
  | cons prevIdx rest =>
    have hprev : h0.length ≤ prevIdx := hids prevIdx (by simp)
    simp only [merge_step_heap]
    split_ifs with hc
    · refine ⟨?_, ?_, ?_⟩
      · simp only [hSet, List.length_set]
        exact hlen
      · intro i hi
        simp only [hSet, hGet, List.getD_eq_getElem?_getD]
        rw [List.getElem?_set_ne (by omega)]
        have := hget i hi
        simp only [hGet, List.getD_eq_getElem?_getD] at this
        exact this
      · exact hids
    · refine ⟨(halloc _).1, (halloc _).2, ?_⟩
      intro j hj
      simp only [hAlloc] at hj
      rcases List.mem_cons.mp hj with rfl | hj'
      · omega
      · exact hids j hj'

theorem foldl_merge_heap_frame (idxs : List Nat) (h0 : RangeHeap) :
    ∀ st : RangeHeap × List Nat,
      (h0.length ≤ st.1.length ∧ (∀ i, i < h0.length → hGet st.1 i = hGet h0 i) ∧
        ∀ j ∈ st.2, h0.length ≤ j) →
      h0.length ≤ (idxs.foldl merge_step_heap st).1.length ∧
        (∀ i, i < h0.length → hGet (idxs.foldl merge_step_heap st).1 i = hGet h0 i) ∧
        ∀ j ∈ (idxs.foldl merge_step_heap st).2, h0.length ≤ j := by
  induction idxs with
  | nil => intro st H; exact H
  | cons idx idxs ih =>
    intro st H
    rw [List.foldl_cons]
    exact ih _ (merge_step_heap_frame idx H)

/-- Claim C10: `merge_metadata` never mutates the range dicts of its two
inputs.  In the reference-level model, every heap cell that existed before
the merge holds exactly the same `{start, end, source, timestamp}` dict
afterwards: the loop only allocates copies and mutates those copies. -/
theorem C10_merge_no_input_mutation (h : RangeHeap) (ids1 ids2 : List Nat) :
    ∀ i, i < h.length → hGet (merge_metadata_heap h ids1 ids2).1 i = hGet h i := by
  intro i hi
  have := foldl_merge_heap_frame
    (((ids1 ++ ids2)).insertionSort fun i j => (hGet h i).start ≤ (hGet h j).start)
    h (h, []) ⟨le_refl _, fun _ _ => rfl, by simp⟩
  exact this.2.1 i hi

theorem C10_merge_no_input_mutation_witness :
    hGet (merge_metadata_heap [Range.mk 0 5 "manual" 0, Range.mk 3 8 "manual" 1] [0] [1]).1 0 =
      hGet [Range.mk 0 5 "manual" 0, Range.mk 3 8 "manual" 1] 0 ∧
    hGet (merge_metadata_heap [Range.mk 0 5 "manual" 0, Range.mk 3 8 "manual" 1] [0] [1]).1 1 =
      hGet [Range.mk 0 5 "manual" 0, Range.mk 3 8 "manual" 1] 1 :=
  ⟨C10_merge_no_input_mutation _ [0] [1] 0 (by decide),
   C10_merge_no_input_mutation _ [0] [1] 1 (by decide)⟩

section Examples

example :
    track_manual_input 5 0 0 "hello" [] =
      [{ start := 0, stop := 5, source := "manual", timestamp := 0 }] := by decide

example :
    track_paste_input 6 1 5 "!" (track_manual_input 5 0 0 "hello" []) =
      [{ start := 0, stop := 5, source := "manual", timestamp := 0 },
       { start := 5, stop := 6, source := "pasted", timestamp := 1 }] := by decide

example :
    track_manual_input 10 1 5 "world" (track_manual_input 5 0 0 "hello" []) =
      [{ start := 0, stop := 10, source := "manual", timestamp := 0 }] := by decide

example :
    handle_deletions 6 [{ start := 0, stop := 10, source := "manual", timestamp := 0 }] =
      [{ start := 0, stop := 6, source := "manual", timestamp := 0 }] := by decide

end Examples

end TracePad
